import Mathlib

/-!
Verification of the annotation-splicing, offset-tracking and output-emission
core of `src/reynir_correct/wrappers.py` (GreynirCorrect4LT).

The Python source is shallowly embedded: tokens and annotations become
structures, the splicing pass, the offset tracker, the sentence segmenter,
the `quote` escaping primitive, the m2 emitter and the final join logic
become executable Lean functions translated line by line from the source.
External collaborators (tokenizer, checker, detokenizer, JSON encoder) are
parameters.
-/

namespace GreynirCorrect

/-- A token as produced by the upstream tokenizer (`CorrectToken` in the
source): a kind code, the current (possibly corrected) text, and the
optional pristine original surface form. -/
structure CorrectToken where
  kind : Nat
  txt : String
  original : Option String
deriving Repr, DecidableEq

/-- An annotation over a token range (the `Annotation` class consumed by
`wrappers.py`): inclusive sentence-relative token indices `start` and
`end`, a code, a display text, an optional detail and an optional
suggested replacement. -/
structure Ann where
  start : Nat
  «end» : Nat
  code : String
  text : String
  detail : Option String
  suggest : Option String
  original : Option String
  suggestlist : Option (List String)
deriving Repr, DecidableEq

/-- Python truthiness fallback `a or b` for an optional string `a` and a
string `b`: `a` when it is present and non-empty, else `b`. -/
def pyOr (a : Option String) (b : String) : String :=
  match a with
  | some s => if s.isEmpty then b else s
  | none => b

/-- Source `quote` from `wrappers.py` line 140: the string within double quotes,
with contained backslashes and double quotes escaped with a backslash;
the empty string becomes the bare two-character quote pair. The two
`str.replace` passes are modelled character-wise, which is exact for
single-character patterns. -/
def escapeBackslash (l : List Char) : List Char :=
  match l with
  | [] => []
  | c :: rest =>
    if c = '\\' then '\\' :: '\\' :: escapeBackslash rest
    else c :: escapeBackslash rest

/-- Second `str.replace` pass of `quote`: every double quote becomes
backslash double-quote. -/
def escapeQuote (l : List Char) : List Char :=
  match l with
  | [] => []
  | c :: rest =>
    if c = '"' then '\\' :: '"' :: escapeQuote rest
    else c :: escapeQuote rest

/-- Function `quote(s)` from `wrappers.py` lines 140-145. -/
def quote (s : String) : String :=
  if s.isEmpty then "\"\""
  else "\"" ++ String.mk (escapeQuote (escapeBackslash s.data)) ++ "\""

/-- Variant of `quote` applied to an optional string: Python's `if not s` treats an
absent (`None`) argument exactly like the empty string. -/
def quoteOpt (s : Option String) : String :=
  match s with
  | none => "\"\""
  | some t => quote t

/-- Unescaping: a backslash takes the following character literally;
inverse of the escaping performed by `quote`. -/
def unescape : List Char → List Char
  | [] => []
  | [c] => [c]
  | c :: d :: rest =>
    if c = '\\' then d :: unescape rest
    else c :: unescape (d :: rest)

/-- Strip the surrounding double quotes from a quoted string and unescape
the interior. -/
def unquote (s : String) : String :=
  String.mk (unescape ((s.data.drop 1).dropLast))

/-- The sort key used by both sort calls in `check_grammar` and
`test_grammar`: the `(start, end)` pair, compared lexicographically as
Python compares tuples. -/
def annKey (a : Ann) : Nat × Nat := (a.start, a.«end»)

/-- Boolean lexicographic comparison on the `(start, end)` key. -/
def keyLe (x y : Ann) : Bool :=
  decide (x.start < y.start) || (x.start == y.start && decide (x.«end» ≤ y.«end»))

/-- Source `a.sort(key=lambda ann: (ann.start, ann.end))` — Python's stable
ascending sort, modelled by the stable `List.mergeSort`. -/
def sortAsc (l : List Ann) : List Ann := l.mergeSort keyLe

/-- Source `sorted(a, key=lambda ann: (ann.start, ann.end), reverse=True)` —
Python's `reverse=True` sorts as if each comparison were reversed while
keeping equal elements in their original order, i.e. a stable sort under
the flipped comparator. -/
def sortDesc (l : List Ann) : List Ann := l.mergeSort (fun x y => keyLe y x)

/-- Assignment `cleantoklist[i].txt = s`: replace the text of the token at list
position `i`. Out-of-range `i` raises `IndexError` in Python; theorems
about this function carry the in-range hypothesis. -/
def setTxt (l : List CorrectToken) (i : Nat) (s : String) : List CorrectToken :=
  match l.get? i with
  | none => l
  | some t => l.set i { t with txt := s }

/-- Deletion `del l[a:b]` for `a ≤ b`: remove the positions in the half-open range
`[a, b)`, clipping at the list length as Python slices do. -/
def delSlice (l : List CorrectToken) (a b : Nat) : List CorrectToken :=
  l.take a ++ l.drop b

/-- One iteration of the splicing loop of `check_grammar`
(`wrappers.py` lines 444-458) and `test_grammar` (lines 358-372): skip
an annotation with no suggestion; otherwise overwrite the text of the
token at list position `start + 1` with the suggestion and, when the
annotation spans more than one token, delete list positions
`start + 2` up to but excluding `end + 2`. -/
def spliceStep (cleantoklist : List CorrectToken) (xann : Ann) : List CorrectToken :=
  match xann.suggest with
  | none => cleantoklist
  | some sugg =>
    let l1 := setTxt cleantoklist (xann.start + 1) sugg
    if xann.«end» > xann.start then delSlice l1 (xann.start + 2) (xann.«end» + 2)
    else l1

/-- The whole splicing pass: a shallow copy of the token list folded
through `spliceStep` over the annotations in descending `(start, end)`
order. -/
def splice (toklist : List CorrectToken) (anns : List Ann) : List CorrectToken :=
  (sortDesc anns).foldl spliceStep toklist

/-- Source `len(t.original or t.txt or "")` — the number of characters the
running offset advances by for one token: the length of the original
surface form when present and non-empty, else of the current text, else
zero (`s or ""` has the same length as `s`, so the final fallback is
already covered by `pyOr`). -/
def advance (t : CorrectToken) : Nat := (pyOr t.original t.txt).length

/-- One iteration of the offset loop (`wrappers.py` lines 429-431): record
the running offset for the current token index, then advance it. The
state is the `token_offsets` mapping (in index order) and the running
`offset`. -/
def offsetLoop (st : List Nat × Nat) (t : CorrectToken) : List Nat × Nat :=
  (st.1 ++ [st.2], st.2 + advance t)

/-- The offset loop over a sentence's token list, starting from the
document-wide running offset: returns the per-token starting offsets and
the updated running offset. -/
def tokenOffsetsRun (offset : Nat) (toklist : List CorrectToken) : List Nat × Nat :=
  toklist.foldl offsetLoop ([], offset)

/-- Recursive characterization of the per-token starting offsets: token
`i` starts at `base` plus the advances of all earlier tokens. Proven
equal to the first component of `tokenOffsetsRun`. -/
def offsetsRec (base : Nat) : List CorrectToken → List Nat
  | [] => []
  | t :: rest => base :: offsetsRec (base + advance t) rest

/-- Python `str()` of an optional string: `None` renders as the literal
`"None"`, as happens in the `.format` calls of the csv and m2 branches. -/
def pyStr (s : Option String) : String :=
  match s with
  | some t => t
  | none => "None"

/-- One annotation line of the m2 output (`wrappers.py` lines 517-521):
`A <start> <end>|||<code>|||<suggest>|||REQUIRED|||-NONE-|||0`. -/
def m2Line (mann : Ann) : String :=
  "A " ++ toString mann.start ++ " " ++ toString mann.«end» ++ "|||" ++
    mann.code ++ "|||" ++ pyStr mann.suggest ++ "|||REQUIRED|||-NONE-|||0"

/-- The m2 branch of `check_grammar` (lines 514-522) for one sentence:
append `S <cleaned>`, then one `A`-line per annotation of the sorted
list `a`, then one empty separator line. -/
def m2Branch (accumul : List String) (cleaned : String) (a : List Ann) : List String :=
  ((accumul ++ ["S " ++ cleaned]) ++ a.map m2Line) ++ [""]

/-- Output format selector of `check_grammar`; `textplustoks` shares the
text branch (line 441). Other strings would fall through every branch. -/
inductive Format where
  | text
  | textplustoks
  | json
  | csv
  | m2
deriving Repr, DecidableEq

/-- The final join of `check_grammar` (`wrappers.py` lines 523-530) and,
with the same shape, of `check_spelling` (lines 258-265): when
`print_all` holds, space-join the accumulated units and append the
buffered annotation lines at the bottom; otherwise newline-join the
units. The chosen format is not consulted here. -/
def joinFinal (print_all : Bool) (accumul annlist : List String) : String :=
  if print_all then
    let accumstr := String.intercalate " " accumul
    if annlist.isEmpty then accumstr
    else accumstr ++ "\n" ++ String.intercalate "\n" annlist
  else String.intercalate "\n" accumul

/-- End of `check_grammar`: `options.get("print_all", True)` — the
`print_all` option defaults to `True` there. -/
def checkGrammarFinal (format : Format) (print_all : Option Bool)
    (accumul annlist : List String) : String :=
  let _ := format
  joinFinal (print_all.getD true) accumul annlist

/-- End of `check_spelling`: `options.get("print_all", False)` — the same
join with the option defaulting to `False`. -/
def checkSpellingFinal (format : Format) (print_all : Option Bool)
    (unisum annlist : List String) : String :=
  let _ := format
  joinFinal (print_all.getD false) unisum annlist

/-- Generator `sentence_stream` (`wrappers.py` lines 304-320): accumulate tokens
into `curr_sent`; a token whose kind is in the terminator set `TOK.END`
(membership supplied by the external tokenizer as the predicate
`isEnd`) is appended and the buffer yielded; a trailing non-empty buffer
is yielded once at the end of the stream. -/
def sentenceStream (isEnd : Nat → Bool) (curr_sent : List CorrectToken) :
    List CorrectToken → List (List CorrectToken)
  | [] => if curr_sent.isEmpty then [] else [curr_sent]
  | t :: ts =>
    let curr := curr_sent ++ [t]
    if isEnd t.kind then curr :: sentenceStream isEnd [] ts
    else sentenceStream isEnd curr ts

/-- A parser terminal of a successfully parsed sentence: an `index` into
the token list and a display `text`. -/
structure Terminal where
  index : Nat
  text : String
deriving Repr, DecidableEq

/-- The checker's output for one sentence (`CheckedSentence`): tokens, an
optional parse tree (opaque here), optional terminals, the normalized
`tidy_text` and the annotation list. -/
structure CheckedSent where
  tokens : List CorrectToken
  tree : Option Unit
  terminals : Option (List Terminal)
  tidy_text : String
  annotations : List Ann
deriving Repr, DecidableEq

/-- One token record of the json output (`AnnTokenDict`): kind, display
text and original surface text. -/
structure AnnTokenDict where
  k : Nat
  x : String
  o : String
deriving Repr, DecidableEq

/-- One annotation record of the json output (`AnnDict`). `end_char` is
an `Int` because the source subtracts one from a non-negative offset. -/
structure AnnDict where
  start : Nat
  «end» : Nat
  start_char : Nat
  end_char : Int
  code : String
  text : String
  detail : String
  suggest : String
deriving Repr, DecidableEq

/-- The full json record for one sentence (`AnnResultDict`). -/
structure AnnResultDict where
  original : String
  corrected : String
  annotations : List AnnDict
  tokens : List AnnTokenDict
deriving Repr, DecidableEq

/-- The token list of the json record (`wrappers.py` lines 409-426): the
raw token list when the sentence was not parsed, else the terminal text
where a terminal covers the position (`token_map`; for a duplicated
index the dictionary comprehension keeps the last entry). The source
asserts `sent.terminals is not None` when a tree exists; a missing list
is modelled as empty. -/
def jsonTokens (sent : CheckedSent) : List AnnTokenDict :=
  match sent.tree with
  | none =>
    sent.tokens.map (fun d => ⟨d.kind, d.txt, pyOr d.original d.txt⟩)
  | some _ =>
    let terminals := sent.terminals.getD []
    (sent.tokens.enum.map (fun di =>
      let ix := di.1
      let d := di.2
      let mapped := (terminals.reverse.find? (fun t => t.index == ix)).map Terminal.text
      ⟨d.kind, mapped.getD d.txt, pyOr d.original d.txt⟩))

/-- One annotation record of the json branch (`wrappers.py` lines
472-491): `start_char` is the stored offset of token `start`; `end_char`
is the stored offset of token `end + 1` when that position is within the
sentence, else the running offset after the sentence, minus one.
`token_offsets[...]` would raise `KeyError` out of range; theorems carry
the in-range hypotheses. -/
def annDictOf (token_offsets : List Nat) (len_tokens : Nat) (offset : Nat)
    (ann : Ann) : AnnDict :=
  { start := ann.start
    «end» := ann.«end»
    start_char := (token_offsets.get? ann.start).getD 0
    end_char :=
      ((if ann.«end» + 1 < len_tokens
        then (token_offsets.get? (ann.«end» + 1)).getD 0
        else offset : Nat) : Int) - 1
    code := ann.code
    text := ann.text
    detail := ann.detail.getD ""
    suggest := ann.suggest.getD "" }

/-- Python `repr` of a list of strings as `str.format` renders it in the
csv branch; the inner repr-escaping of quotes is elided (no claim
depends on it). -/
def pyListRepr (xs : List String) : String :=
  let q := String.singleton (Char.ofNat 39)
  "[" ++ String.intercalate ", " (xs.map (fun s => q ++ s ++ q)) ++ "]"

/-- Python `str()` of the optional suggestion list. -/
def pyStrSuggestList (l : Option (List String)) : String :=
  match l with
  | none => "None"
  | some xs => pyListRepr xs

/-- One line of the csv branch of `check_grammar` (lines 503-513). -/
def csvLine (cann : Ann) : String :=
  cann.code ++ "," ++ pyStr cann.original ++ "," ++ pyStr cann.suggest ++ "," ++
    toString cann.start ++ "," ++ toString cann.«end» ++ "," ++
    pyStrSuggestList cann.suggestlist

/-- The per-document mutable state of the `check_grammar` loop: the
running character offset, the accumulated output units and the buffered
annotation lines. -/
structure GState where
  offset : Nat
  accumul : List String
  annlist : List String
deriving Repr, DecidableEq

/-- The options consulted inside the `check_grammar` loop. `print_all`
stays optional because the source reads it with different defaults at
different places. -/
structure GOptions where
  format : Format
  annotations : Bool
  print_all : Option Bool
deriving Repr, DecidableEq

/-- The body of the `check_grammar` per-sentence loop (`wrappers.py`
lines 399-522), with the external collaborators — checker, detokenizer
and JSON encoder, and the annotation display rendering `str(ann)` — as
parameters. A sentence for which the checker returns `none` is skipped
by `continue` before any state is touched. -/
def processSentence (opts : GOptions)
    (check_tokens : List CorrectToken → Option CheckedSent)
    (detokenize : List CorrectToken → String)
    (json_dumps : AnnResultDict → String)
    (annStr : Ann → String)
    (st : GState) (toklist : List CorrectToken) : GState :=
  let len_tokens := toklist.length
  match check_tokens toklist with
  | none => st
  | some sent =>
    let tokens := jsonTokens sent
    let run := tokenOffsetsRun st.offset toklist
    let token_offsets := run.1
    let offset := run.2
    let cleaned := detokenize toklist
    let a := sortAsc sent.annotations
    match opts.format with
    | Format.text | Format.textplustoks =>
      let arev := sortDesc a
      let cleantoklist := arev.foldl spliceStep toklist
      let txt := detokenize cleantoklist
      let annlist1 := if opts.annotations then st.annlist ++ a.map annStr
        else st.annlist
      let flush := opts.annotations && !annlist1.isEmpty && !(opts.print_all.getD false)
      let txt2 := if flush then txt ++ "\n" ++ String.intercalate "\n" annlist1 else txt
      let annlist2 := if flush then [] else annlist1
      { offset := offset, accumul := st.accumul ++ [txt2], annlist := annlist2 }
    | Format.json =>
      let annotations := a.map (annDictOf token_offsets len_tokens offset)
      let ard : AnnResultDict :=
        { original := cleaned
          corrected := sent.tidy_text
          annotations := annotations
          tokens := tokens }
      { offset := offset, accumul := st.accumul ++ [json_dumps ard],
        annlist := st.annlist }
    | Format.csv =>
      { offset := offset, accumul := st.accumul ++ a.map csvLine,
        annlist := st.annlist }
    | Format.m2 =>
      { offset := offset, accumul := m2Branch st.accumul cleaned a,
        annlist := st.annlist }

/-! ## Helper lemmas -/

theorem unescape_cons_of_ne {c : Char} (xs : List Char) (h : c ≠ '\\') :
    unescape (c :: xs) = c :: unescape xs := by
  cases xs with
  | nil => rfl
  | cons d rest => simp [unescape, h]

theorem unescape_escape (l : List Char) :
    unescape (escapeQuote (escapeBackslash l)) = l := by
  induction l with
  | nil => rfl
  | cons c rest ih =>
    by_cases hb : c = '\\'
    · subst hb
      have h1 : escapeBackslash ('\\' :: rest) =
          '\\' :: '\\' :: escapeBackslash rest := by simp [escapeBackslash]
      have h2 : escapeQuote ('\\' :: '\\' :: escapeBackslash rest) =
          '\\' :: '\\' :: escapeQuote (escapeBackslash rest) := by
        simp [escapeQuote]
      rw [h1, h2]
      simp [unescape, ih]
    · by_cases hq : c = '"'
      · subst hq
        have h1 : escapeBackslash ('"' :: rest) =
            '"' :: escapeBackslash rest := by simp [escapeBackslash]
        have h2 : escapeQuote ('"' :: escapeBackslash rest) =
            '\\' :: '"' :: escapeQuote (escapeBackslash rest) := by
          simp [escapeQuote]
        rw [h1, h2]
        simp [unescape, ih]
      · have h1 : escapeBackslash (c :: rest) = c :: escapeBackslash rest := by
          simp [escapeBackslash, hb]
        have h2 : escapeQuote (c :: escapeBackslash rest) =
            c :: escapeQuote (escapeBackslash rest) := by
          simp [escapeQuote, hq]
        rw [h1, h2, unescape_cons_of_ne _ hb, ih]

theorem quote_data_of_ne {s : String} (h : s ≠ "") :
    (quote s).data = '"' :: escapeQuote (escapeBackslash s.data) ++ ['"'] := by
  have he : s.isEmpty = false := by
    rw [Bool.eq_false_iff]
    intro hx
    exact h ((String.isEmpty_iff s).mp hx)
  rw [quote, he]
  rfl

theorem sentenceStream_join (isEnd : Nat → Bool) (ts : List CorrectToken) :
    ∀ curr, (sentenceStream isEnd curr ts).flatten = curr ++ ts := by
  induction ts with
  | nil =>
    intro curr
    by_cases h : curr.isEmpty
    · simp [sentenceStream, h, List.isEmpty_iff.mp h]
    · simp [sentenceStream, h]
  | cons t rest ih =>
    intro curr
    by_cases h : isEnd t.kind
    · simp [sentenceStream, h, ih]
    · simp [sentenceStream, h, ih]

theorem sentenceStream_ne_nil (isEnd : Nat → Bool) (ts : List CorrectToken) :
    ∀ curr, ∀ s ∈ sentenceStream isEnd curr ts, s ≠ [] := by
  induction ts with
  | nil =>
    intro curr s hs
    by_cases h : curr.isEmpty
    · simp [sentenceStream, h] at hs
    · simp [sentenceStream, h] at hs
      subst hs
      exact fun hc => h (by simp [hc])
  | cons t rest ih =>
    intro curr s hs
    by_cases h : isEnd t.kind
    · simp [sentenceStream, h] at hs
      rcases hs with hs | hs
      · subst hs; simp
      · exact ih [] s hs
    · simp [sentenceStream, h] at hs
      exact ih (curr ++ [t]) s hs

theorem sentenceStream_no_inner_end (isEnd : Nat → Bool) (ts : List CorrectToken) :
    ∀ curr, (∀ x ∈ curr, isEnd x.kind = false) →
      ∀ s ∈ sentenceStream isEnd curr ts, ∀ x ∈ s.dropLast, isEnd x.kind = false := by
  induction ts with
  | nil =>
    intro curr hc s hs x hx
    by_cases h : curr.isEmpty
    · simp [sentenceStream, h] at hs
    · simp [sentenceStream, h] at hs
      subst hs
      exact hc x (List.dropLast_subset _ hx)
  | cons t rest ih =>
    intro curr hc s hs x hx
    by_cases h : isEnd t.kind
    · simp [sentenceStream, h] at hs
      rcases hs with hs | hs
      · subst hs
        simp at hx
        exact hc x hx
      · exact ih [] (by simp) s hs x hx
    · simp [sentenceStream, h] at hs
      refine ih (curr ++ [t]) ?_ s hs x hx
      intro y hy
      rcases List.mem_append.mp hy with hy | hy
      · exact hc y hy
      · simp at hy
        subst hy
        simpa using h

theorem sentenceStream_nonfinal_ends (isEnd : Nat → Bool) (ts : List CorrectToken) :
    ∀ curr i s, (sentenceStream isEnd curr ts).get? i = some s →
      i + 1 < (sentenceStream isEnd curr ts).length →
      ∃ t, s.getLast? = some t ∧ isEnd t.kind = true := by
  induction ts with
  | nil =>
    intro curr i s _ hlen
    by_cases h : curr.isEmpty <;> simp [sentenceStream, h] at hlen
  | cons t rest ih =>
    intro curr i s hget hlen
    by_cases h : isEnd t.kind
    · rw [sentenceStream] at hget hlen
      simp only [h, if_pos] at hget hlen
      match i with
      | 0 =>
        simp at hget
        subst hget
        exact ⟨t, by simp, h⟩
      | Nat.succ j =>
        simp only [List.get?_cons_succ] at hget
        simp only [List.length_cons] at hlen
        exact ih [] j s hget (by omega)
    · rw [sentenceStream] at hget hlen
      simp only [h, if_neg, Bool.false_eq_true, not_false_iff] at hget hlen
      exact ih (curr ++ [t]) i s hget hlen

theorem offsetLoop_foldl (ts : List CorrectToken) :
    ∀ pre off, ts.foldl offsetLoop (pre, off) =
      (pre ++ offsetsRec off ts, off + (ts.map advance).sum) := by
  induction ts with
  | nil => intro pre off; simp [offsetsRec]
  | cons t rest ih =>
    intro pre off
    simp only [List.foldl_cons, offsetLoop, offsetsRec, List.map_cons, List.sum_cons]
    rw [ih]
    simp
    omega

theorem tokenOffsetsRun_eq (off : Nat) (ts : List CorrectToken) :
    tokenOffsetsRun off ts = (offsetsRec off ts, off + (ts.map advance).sum) := by
  rw [tokenOffsetsRun, offsetLoop_foldl]
  simp

theorem offsetsRec_length (base : Nat) (ts : List CorrectToken) :
    (offsetsRec base ts).length = ts.length := by
  induction ts generalizing base with
  | nil => rfl
  | cons t rest ih => simp [offsetsRec, ih]

theorem offsetsRec_get? (ts : List CorrectToken) :
    ∀ base i, i < ts.length →
      (offsetsRec base ts).get? i = some (base + ((ts.take i).map advance).sum) := by
  induction ts with
  | nil => intro base i h; simp at h
  | cons t rest ih =>
    intro base i h
    match i with
    | 0 => simp [offsetsRec]
    | Nat.succ j =>
      simp only [offsetsRec, List.get?_cons_succ, List.take_succ_cons, List.map_cons,
        List.sum_cons]
      rw [ih (base + advance t) j (by simpa using h)]
      congr 1
      omega

theorem pyOr_ne_empty {a : Option String} {b : String}
    (h : ¬a.getD "" = "" ∨ ¬b = "") : pyOr a b ≠ "" := by
  cases a with
  | none =>
    simp only [pyOr]
    rcases h with h | h
    · simp [Option.getD] at h
    · exact h
  | some s =>
    simp only [pyOr]
    by_cases he : s.isEmpty
    · rw [if_pos he]
      rcases h with h | h
      · exact absurd ((String.isEmpty_iff s).mp he) (by simpa using h)
      · exact h
    · rw [if_neg he]
      intro hc
      exact he (by simp [hc, String.isEmpty_iff])

theorem advance_pos_of_nonempty {t : CorrectToken}
    (h : ¬t.original.getD "" = "" ∨ ¬t.txt = "") : 0 < advance t := by
  have hne := pyOr_ne_empty h
  have hdata : (pyOr t.original t.txt).data ≠ [] := fun hc =>
    hne (String.ext hc)
  rw [advance]
  exact List.length_pos.mpr hdata

theorem sum_take_succ_advance (ts : List CorrectToken) (i : Nat) (t : CorrectToken)
    (h : ts.get? i = some t) :
    ((ts.take (i + 1)).map advance).sum = ((ts.take i).map advance).sum + advance t := by
  rw [List.take_succ]
  have hg : ts[i]? = some t := by
    rw [← List.get?_eq_getElem?]
    exact h
  rw [hg]
  simp

theorem setTxt_length (l : List CorrectToken) (i : Nat) (s : String) :
    (setTxt l i s).length = l.length := by
  rw [setTxt]
  cases h : l.get? i <;> simp

theorem setTxt_getElem?_ne (l : List CorrectToken) (i j : Nat) (s : String)
    (h : j ≠ i) : (setTxt l i s)[j]? = l[j]? := by
  rw [setTxt]
  cases hg : l.get? i with
  | none => rfl
  | some t => simp [List.getElem?_set_ne (Ne.symm h)]

theorem setTxt_getElem?_self (l : List CorrectToken) (i : Nat) (s : String)
    (t : CorrectToken) (h : l[i]? = some t) :
    (setTxt l i s)[i]? = some { t with txt := s } := by
  rw [setTxt]
  have hg : l.get? i = some t := by rw [List.get?_eq_getElem?]; exact h
  rw [hg]
  have hlt : i < l.length := by
    rcases List.getElem?_eq_some.mp h with ⟨hl, _⟩
    exact hl
  simp [List.getElem?_set_self hlt]

theorem mergeSort_pair {α : Type} (a b : α) (le : α → α → Bool) :
    [a, b].mergeSort le = if le a b then [a, b] else [b, a] := by
  rw [List.mergeSort]
  simp [List.merge]

theorem keyLe_iff (x y : Ann) :
    keyLe x y = true ↔
      x.start < y.start ∨ (x.start = y.start ∧ x.«end» ≤ y.«end») := by
  rw [keyLe]
  simp only [Bool.or_eq_true, decide_eq_true_eq, Bool.and_eq_true, beq_iff_eq]

theorem keyLe_trans (a b c : Ann) (hab : keyLe a b) (hbc : keyLe b c) :
    keyLe a c := by
  rw [keyLe_iff] at hab hbc ⊢
  omega

theorem keyLe_total (a b : Ann) : keyLe a b || keyLe b a := by
  rw [Bool.or_eq_true, keyLe_iff, keyLe_iff]
  omega

theorem keyLe_antisymm_key {x y : Ann} (hxy : keyLe x y = true)
    (hyx : keyLe y x = true) : annKey x = annKey y := by
  rw [keyLe_iff] at hxy hyx
  rw [annKey, annKey, Prod.ext_iff]
  exact ⟨by omega, by omega⟩

/-! ## Claims -/

/-- C9: in the offset loop, the recorded starting offset of each token
equals the starting offset plus the sum of the advances — length of the
original surface form when present and non-empty, else of the current
text, else zero — of all previously processed tokens; consequently the
recorded offsets are non-decreasing, and strictly increasing at every
token carrying a non-empty original or a non-empty current text. -/
theorem tokenOffsets_invariant (base : Nat) (ts : List CorrectToken) :
    (∀ i, i < ts.length →
      ((tokenOffsetsRun base ts).1).get? i =
        some (base + ((ts.take i).map advance).sum)) ∧
    (∀ i a b, ((tokenOffsetsRun base ts).1).get? i = some a →
      ((tokenOffsetsRun base ts).1).get? (i + 1) = some b → a ≤ b) ∧
    (∀ i t a b, ts.get? i = some t →
      (¬t.original.getD "" = "" ∨ ¬t.txt = "") →
      ((tokenOffsetsRun base ts).1).get? i = some a →
      ((tokenOffsetsRun base ts).1).get? (i + 1) = some b → a < b) := by
  have hrun : (tokenOffsetsRun base ts).1 = offsetsRec base ts := by
    rw [tokenOffsetsRun_eq]
  refine ⟨?_, ?_, ?_⟩
  · intro i h
    rw [hrun]
    exact offsetsRec_get? ts base i h
  · intro i a b ha hb
    rw [hrun] at ha hb
    have hlt1 : i + 1 < ts.length := by
      have := (List.get?_eq_some.mp hb).1
      rwa [offsetsRec_length] at this
    have hlt : i < ts.length := by omega
    obtain ⟨t, ht⟩ : ∃ t, ts.get? i = some t :=
      ⟨ts.get ⟨i, hlt⟩, List.get?_eq_get hlt⟩
    rw [offsetsRec_get? ts base i hlt] at ha
    rw [offsetsRec_get? ts base (i + 1) hlt1] at hb
    have ha' := Option.some.inj ha
    have hb' := Option.some.inj hb
    rw [sum_take_succ_advance ts i t ht] at hb'
    omega
  · intro i t a b ht hne ha hb
    rw [hrun] at ha hb
    have hlt1 : i + 1 < ts.length := by
      have := (List.get?_eq_some.mp hb).1
      rwa [offsetsRec_length] at this
    have hlt : i < ts.length := by omega
    rw [offsetsRec_get? ts base i hlt] at ha
    rw [offsetsRec_get? ts base (i + 1) hlt1] at hb
    have ha' := Option.some.inj ha
    have hb' := Option.some.inj hb
    rw [sum_take_succ_advance ts i t ht] at hb'
    have hpos := advance_pos_of_nonempty hne
    omega

/-- Witness for C9 on three concrete tokens (lengths 2, 3 via original,
0): offsets `[0, 2, 5]`, non-decreasing, strict at the second token. -/
theorem tokenOffsets_invariant_witness :
    ((tokenOffsetsRun 0 [⟨1, "ab", none⟩, ⟨1, "x", some "cde"⟩, ⟨1, "", none⟩]).1).get? 2 =
      some (0 + ((([⟨1, "ab", none⟩, ⟨1, "x", some "cde"⟩,
        (⟨1, "", none⟩ : CorrectToken)].take 2).map advance).sum)) ∧
    (2 : Nat) ≤ 5 ∧ (2 : Nat) < 5 := by
  have h := tokenOffsets_invariant 0 [⟨1, "ab", none⟩, ⟨1, "x", some "cde"⟩, ⟨1, "", none⟩]
  refine ⟨h.1 2 (by decide), ?_, ?_⟩
  · exact h.2.1 1 2 5 (by decide) (by decide)
  · exact h.2.2 1 ⟨1, "x", some "cde"⟩ 2 5 (by decide) (by decide) (by decide) (by decide)

/-- C3: the m2 branch appends, for one checked sentence, exactly one
line `S ` followed by the sentence text, then one line per annotation in
ascending `(start, end)` order of the exact form
`A <start> <end>|||<code>|||<suggest>|||REQUIRED|||-NONE-|||0`, then one
empty separator line. -/
theorem m2_emission (accumul : List String) (cleaned : String) (anns : List Ann) :
    ∃ unit, m2Branch accumul cleaned (sortAsc anns) = accumul ++ unit ∧
      unit.head? = some ("S " ++ cleaned) ∧
      unit.getLast? = some "" ∧
      unit.length = anns.length + 2 ∧
      (∀ i ann, (sortAsc anns).get? i = some ann →
        unit.get? (i + 1) = some ("A " ++ toString ann.start ++ " " ++
          toString ann.«end» ++ "|||" ++ ann.code ++ "|||" ++ pyStr ann.suggest ++
          "|||REQUIRED|||-NONE-|||0")) ∧
      (sortAsc anns).Pairwise (fun x y => keyLe x y = true) := by
  refine ⟨("S " ++ cleaned) :: (sortAsc anns).map m2Line ++ [""], ?_, rfl, ?_, ?_, ?_, ?_⟩
  · rw [m2Branch]
    simp
  · rw [List.getLast?_concat]
  · simp only [List.length_append, List.length_cons, List.length_map, List.length_nil]
    rw [sortAsc, (List.mergeSort_perm anns keyLe).length_eq]
  · intro i ann hget
    have hlt : i < (sortAsc anns).length := (List.get?_eq_some.mp hget).1
    rw [List.cons_append, List.get?_cons_succ, List.get?_eq_getElem?,
      List.getElem?_append_left (by simpa using hlt), List.getElem?_map,
      ← List.get?_eq_getElem?, hget]
    rfl
  · exact List.sorted_mergeSort keyLe_trans keyLe_total anns

/-- Witness for C3 on the m2-format spec scenario: one sentence, one
annotation `(start 0, end 1, code SPELL, suggest rétt)` produces the
`S`-line, the exact annotation line, and the empty separator. -/
theorem m2_emission_witness :
    ∃ unit, m2Branch [] "þetta er rétt"
        (sortAsc [⟨0, 1, "SPELL", "", none, some "rétt", none, none⟩]) =
        [] ++ unit ∧
      unit.head? = some ("S " ++ "þetta er rétt") ∧
      unit.getLast? = some "" ∧
      unit.length = 3 ∧
      unit.get? 1 = some "A 0 1|||SPELL|||rétt|||REQUIRED|||-NONE-|||0" := by
  obtain ⟨u, h1, h2, h3, h4, h5, h6⟩ := m2_emission [] "þetta er rétt"
    [⟨0, 1, "SPELL", "", none, some "rétt", none, none⟩]
  refine ⟨u, h1, h2, h3, by rw [h4]; rfl, ?_⟩
  have := h5 0 ⟨0, 1, "SPELL", "", none, some "rétt", none, none⟩
    (by rw [sortAsc, List.mergeSort_singleton]; rfl)
  rw [this]
  rfl

/-- Counterexample to C4 as stated: with the default options
(`print_all` absent, defaulting to `True` at the end of
`check_grammar`), two json units are joined with a space, not
newline-joined — the join never consults the format. -/
theorem json_join_counterexample :
    checkGrammarFinal Format.json none ["ja", "jb"] [] ≠
      String.intercalate "\n" ["ja", "jb"] := by
  decide

/-- C4 (amended): the cross-sentence join of `check_grammar` depends
only on the `print_all` option and never on the format: with
`print_all` absent (defaulting to true) or explicitly true, the units of
every format — text, m2, json and csv alike — are joined with a single
space (with buffered annotation lines appended at the bottom); with
`print_all` false, the units of every format are newline-joined. In
`check_spelling` the same join defaults to `print_all` false, hence
newline-joined units. -/
theorem join_depends_only_on_print_all (format : Format) (u annlist : List String) :
    checkGrammarFinal format none u [] = String.intercalate " " u ∧
    checkGrammarFinal format (some true) u [] = String.intercalate " " u ∧
    (∀ a as, checkGrammarFinal format none u (a :: as) =
      String.intercalate " " u ++ "\n" ++ String.intercalate "\n" (a :: as)) ∧
    checkGrammarFinal format (some false) u annlist = String.intercalate "\n" u ∧
    checkSpellingFinal format none u annlist = String.intercalate "\n" u := by
  refine ⟨?_, ?_, ?_, ?_, ?_⟩
  · rw [checkGrammarFinal, Option.getD_none, joinFinal, if_pos rfl, List.isEmpty_nil,
      if_pos rfl]
  · rw [checkGrammarFinal, Option.getD_some, joinFinal, if_pos rfl, List.isEmpty_nil,
      if_pos rfl]
  · intro a as
    rw [checkGrammarFinal, Option.getD_none, joinFinal, if_pos rfl, List.isEmpty_cons]
    simp
  · rw [checkGrammarFinal, Option.getD_some, joinFinal, if_neg (by simp)]
  · rw [checkSpellingFinal, Option.getD_none, joinFinal, if_neg (by simp)]

/-- Counterexample to C5 as stated: both Python sorts are stable, so on
two distinct annotations sharing the key `(0, 0)` the ascending sort
keeps the original order and reversing it flips them, while the
descending (`reverse=True`) sort also keeps the original order — the two
sequences differ. -/
theorem sortAsc_reverse_ne_sortDesc_counterexample :
    ¬((sortAsc [⟨0, 0, "A", "", none, none, none, none⟩,
          ⟨0, 0, "B", "", none, none, none, none⟩]).reverse =
        sortDesc [⟨0, 0, "A", "", none, none, none, none⟩,
          ⟨0, 0, "B", "", none, none, none, none⟩]) := by
  rw [sortAsc, sortDesc, mergeSort_pair, mergeSort_pair]
  decide

/-- C5 (amended): when no two annotations of the list share the same
`(start, end)` key, sorting ascending by the key and reversing yields
exactly the descending (`reverse=True`) sort; with shared keys the two
stable sorts order the tied elements oppositely. -/
theorem sortAsc_reverse_eq_sortDesc (l : List Ann)
    (h : l.Pairwise (fun a b => annKey a ≠ annKey b)) :
    (sortAsc l).reverse = sortDesc l := by
  have hperm1 : List.Perm ((sortAsc l).reverse) l :=
    ((sortAsc l).reverse_perm).trans (List.mergeSort_perm l keyLe)
  have hperm2 : List.Perm (sortDesc l) l := List.mergeSort_perm l _
  have hs1 : (sortAsc l).Pairwise (fun a b => keyLe a b = true) :=
    List.sorted_mergeSort keyLe_trans keyLe_total l
  have hs1r : ((sortAsc l).reverse).Pairwise (fun a b => keyLe b a = true) :=
    List.pairwise_reverse.mpr hs1
  have hs2 : (sortDesc l).Pairwise (fun a b => keyLe b a = true) :=
    List.sorted_mergeSort (fun a b c hab hbc => keyLe_trans c b a hbc hab)
      (fun a b => by rw [Bool.or_comm]; exact keyLe_total a b) l
  have hsymm : ∀ {x y : Ann}, annKey x ≠ annKey y → annKey y ≠ annKey x :=
    fun hxy => Ne.symm hxy
  have hd1 : ((sortAsc l).reverse).Pairwise (fun a b => annKey a ≠ annKey b) :=
    (hperm1.pairwise_iff hsymm).mpr h
  have hd2 : (sortDesc l).Pairwise (fun a b => annKey a ≠ annKey b) :=
    (hperm2.pairwise_iff hsymm).mpr h
  have hg1 : ((sortAsc l).reverse).Pairwise
      (fun a b => keyLe b a = true ∧ annKey a ≠ annKey b) := hs1r.and hd1
  have hg2 : (sortDesc l).Pairwise
      (fun a b => keyLe b a = true ∧ annKey a ≠ annKey b) := hs2.and hd2
  haveI : IsAntisymm Ann (fun a b => keyLe b a = true ∧ annKey a ≠ annKey b) :=
    ⟨fun a b h1 h2 => absurd (keyLe_antisymm_key h1.1 h2.1).symm h1.2⟩
  exact List.eq_of_perm_of_sorted (hperm1.trans hperm2.symm) hg1 hg2

/-- Witness for C5 (amended) on two annotations with the distinct keys
`(0, 0)` and `(1, 2)`. -/
theorem sortAsc_reverse_eq_sortDesc_witness :
    (sortAsc [⟨0, 0, "A", "", none, none, none, none⟩,
        ⟨1, 2, "B", "", none, none, none, none⟩]).reverse =
      sortDesc [⟨0, 0, "A", "", none, none, none, none⟩,
        ⟨1, 2, "B", "", none, none, none, none⟩] :=
  sortAsc_reverse_eq_sortDesc _ (by
    refine List.Pairwise.cons ?_ (List.Pairwise.cons ?_ List.Pairwise.nil)
    · intro b hb
      simp only [List.mem_singleton] at hb
      subst hb
      decide
    · intro b hb
      simp at hb)

/-- Counterexample to C6 as stated: an annotation whose suggest is
present but empty (`suggest = some ""`) is not skipped — the code only
tests `suggest is None` — so it does modify the working copy, erasing
the text of the token at position `start + 1`. -/
theorem spliceStep_empty_suggest_modifies :
    spliceStep [⟨0, "B", none⟩, ⟨1, "a", none⟩]
        ⟨0, 0, "X", "m", none, some "", none, none⟩ ≠
      [⟨0, "B", none⟩, ⟨1, "a", none⟩] := by
  decide

/-- C6 (amended): an annotation whose suggest is absent (`None`) leaves
the working token list entirely unmodified; any annotation carrying a
present suggest — including the empty string — overwrites the text of
the token at list position `start + 1`. -/
theorem spliceStep_frame (toks : List CorrectToken) (ann : Ann) :
    (ann.suggest = none → spliceStep toks ann = toks) ∧
    (∀ s, ann.suggest = some s → ann.start + 1 < toks.length →
      ∃ t, toks[ann.start + 1]? = some t ∧
        (spliceStep toks ann)[ann.start + 1]? = some { t with txt := s }) := by
  constructor
  · intro h
    rw [spliceStep, h]
  · intro s hs hlt
    obtain ⟨t, ht⟩ : ∃ t, toks[ann.start + 1]? = some t :=
      ⟨toks.get ⟨ann.start + 1, hlt⟩, by
        rw [← List.get?_eq_getElem?]; exact List.get?_eq_get hlt⟩
    refine ⟨t, ht, ?_⟩
    rw [spliceStep, hs]
    simp only []
    by_cases hgt : ann.«end» > ann.start
    · rw [if_pos hgt, delSlice]
      have hlen1 : (setTxt toks (ann.start + 1) s).length = toks.length :=
        setTxt_length _ _ _
      rw [List.getElem?_append_left (by rw [List.length_take, hlen1]; omega)]
      rw [List.getElem?_take_of_lt (by omega : ann.start + 1 < ann.start + 2)]
      exact setTxt_getElem?_self _ _ _ t ht
    · rw [if_neg hgt]
      exact setTxt_getElem?_self _ _ _ t ht

/-- Witness for C6 (amended): a no-suggest annotation leaves the list
untouched; a present empty suggest overwrites position 1. -/
theorem spliceStep_frame_witness :
    spliceStep [⟨0, "B", none⟩, ⟨1, "a", none⟩]
        ⟨0, 0, "X", "m", none, none, none, none⟩ =
      [⟨0, "B", none⟩, ⟨1, "a", none⟩] ∧
    ∃ t, ([⟨0, "B", none⟩, (⟨1, "a", none⟩ : CorrectToken)])[1]? = some t ∧
      (spliceStep [⟨0, "B", none⟩, ⟨1, "a", none⟩]
        ⟨0, 0, "X", "m", none, some "", none, none⟩)[1]? =
        some { t with txt := "" } := by
  constructor
  · exact (spliceStep_frame [⟨0, "B", none⟩, ⟨1, "a", none⟩]
      ⟨0, 0, "X", "m", none, none, none, none⟩).1 rfl
  · exact (spliceStep_frame [⟨0, "B", none⟩, ⟨1, "a", none⟩]
      ⟨0, 0, "X", "m", none, some "", none, none⟩).2 "" rfl (by decide)

/-- C1: one step of the splicing pass, for an annotation carrying a
suggestion. When `start = end` the working copy keeps its token count
and only the token at list position `start + 1` has its text replaced
by the suggestion; when the annotation spans more than one token
(`end > start`) the positions `start + 2` up to but excluding `end + 2`
are additionally deleted, so the token count drops by exactly
`end - start` (i.e. `k - 1` for a `k`-token span). -/
theorem spliceStep_spec (toks : List CorrectToken) (ann : Ann) (s : String)
    (hs : ann.suggest = some s) :
    (ann.«end» = ann.start → ann.start + 1 < toks.length →
      (spliceStep toks ann).length = toks.length ∧
      (∀ j, j ≠ ann.start + 1 → (spliceStep toks ann)[j]? = toks[j]?) ∧
      (∃ t, toks[ann.start + 1]? = some t ∧
        (spliceStep toks ann)[ann.start + 1]? = some { t with txt := s })) ∧
    (ann.start < ann.«end» → ann.«end» + 2 ≤ toks.length →
      (spliceStep toks ann).length = toks.length - (ann.«end» - ann.start) ∧
      (∀ j, j < ann.start + 1 → (spliceStep toks ann)[j]? = toks[j]?) ∧
      (∃ t, toks[ann.start + 1]? = some t ∧
        (spliceStep toks ann)[ann.start + 1]? = some { t with txt := s }) ∧
      (∀ j, ann.start + 2 ≤ j →
        (spliceStep toks ann)[j]? = toks[j + (ann.«end» - ann.start)]?)) := by
  constructor
  · intro heq hlt
    have hsplice : spliceStep toks ann = setTxt toks (ann.start + 1) s := by
      rw [spliceStep, hs]
      simp only [heq, if_neg (lt_irrefl ann.start)]
    obtain ⟨t, ht⟩ : ∃ t, toks[ann.start + 1]? = some t :=
      ⟨toks.get ⟨ann.start + 1, hlt⟩, by
        rw [← List.get?_eq_getElem?]; exact List.get?_eq_get hlt⟩
    refine ⟨by rw [hsplice, setTxt_length], ?_, t, ht, ?_⟩
    · intro j hj
      rw [hsplice, setTxt_getElem?_ne _ _ _ _ hj]
    · rw [hsplice, setTxt_getElem?_self _ _ _ t ht]
  · intro hgt hlen
    have hlt1 : ann.start + 1 < toks.length := by omega
    have hsplice : spliceStep toks ann =
        delSlice (setTxt toks (ann.start + 1) s) (ann.start + 2) (ann.«end» + 2) := by
      rw [spliceStep, hs]
      simp only [if_pos hgt]
    obtain ⟨t, ht⟩ : ∃ t, toks[ann.start + 1]? = some t :=
      ⟨toks.get ⟨ann.start + 1, hlt1⟩, by
        rw [← List.get?_eq_getElem?]; exact List.get?_eq_get hlt1⟩
    have hl1len : (setTxt toks (ann.start + 1) s).length = toks.length :=
      setTxt_length _ _ _
    have htakelen : ((setTxt toks (ann.start + 1) s).take (ann.start + 2)).length =
        ann.start + 2 := by
      rw [List.length_take, hl1len]
      omega
    refine ⟨?_, ?_, ⟨t, ht, ?_⟩, ?_⟩
    · rw [hsplice, delSlice]
      rw [List.length_append, List.length_take, List.length_drop, hl1len]
      omega
    · intro j hj
      rw [hsplice, delSlice]
      rw [List.getElem?_append_left (by omega : j < ((setTxt toks (ann.start + 1) s).take (ann.start + 2)).length)]
      rw [List.getElem?_take_of_lt (by omega : j < ann.start + 2)]
      exact setTxt_getElem?_ne _ _ _ _ (by omega)
    · rw [hsplice, delSlice]
      rw [List.getElem?_append_left (by omega : ann.start + 1 < ((setTxt toks (ann.start + 1) s).take (ann.start + 2)).length)]
      rw [List.getElem?_take_of_lt (by omega : ann.start + 1 < ann.start + 2)]
      exact setTxt_getElem?_self _ _ _ t ht
    · intro j hj
      rw [hsplice, delSlice]
      rw [List.getElem?_append_right (by omega : ((setTxt toks (ann.start + 1) s).take (ann.start + 2)).length ≤ j)]
      rw [List.getElem?_drop]
      rw [htakelen]
      have harith : ann.«end» + 2 + (j - (ann.start + 2)) = j + (ann.«end» - ann.start) := by
        omega
      rw [harith]
      exact setTxt_getElem?_ne _ _ _ _ (by omega)

/-- Witness for C1: a 5-token list with a single-token annotation
`start = end = 0` (position 1 replaced, length kept) and a two-token
annotation `start = 0, end = 1` (position 2 deleted, length drops by
one). -/
theorem spliceStep_spec_witness :
    ((spliceStep [⟨0, "B", none⟩, ⟨1, "a", none⟩, ⟨1, "b", none⟩, ⟨9, ".", none⟩]
        ⟨0, 0, "X", "m", none, some "s", none, none⟩).length = 4 ∧
      (spliceStep [⟨0, "B", none⟩, ⟨1, "a", none⟩, ⟨1, "b", none⟩, ⟨9, ".", none⟩]
        ⟨0, 0, "X", "m", none, some "s", none, none⟩)[2]? = some ⟨1, "b", none⟩) ∧
    ((spliceStep [⟨0, "B", none⟩, ⟨1, "a", none⟩, ⟨1, "b", none⟩, ⟨9, ".", none⟩]
        ⟨0, 1, "X", "m", none, some "s", none, none⟩).length = 4 - 1 ∧
      (spliceStep [⟨0, "B", none⟩, ⟨1, "a", none⟩, ⟨1, "b", none⟩, ⟨9, ".", none⟩]
        ⟨0, 1, "X", "m", none, some "s", none, none⟩)[1]? =
        some ⟨1, "s", none⟩) := by
  have h1 := (spliceStep_spec [⟨0, "B", none⟩, ⟨1, "a", none⟩, ⟨1, "b", none⟩, ⟨9, ".", none⟩]
    ⟨0, 0, "X", "m", none, some "s", none, none⟩ "s" rfl).1 rfl (by decide)
  have h2 := (spliceStep_spec [⟨0, "B", none⟩, ⟨1, "a", none⟩, ⟨1, "b", none⟩, ⟨9, ".", none⟩]
    ⟨0, 1, "X", "m", none, some "s", none, none⟩ "s" rfl).2 (by decide) (by decide)
  refine ⟨⟨h1.1, ?_⟩, ⟨h2.1, ?_⟩⟩
  · rw [h1.2.1 2 (by decide)]
    decide
  · obtain ⟨t, ht, hset⟩ := h2.2.2.1
    have hteq : t = ⟨1, "a", none⟩ := by
      have hx := ht
      simp at hx
      exact hx.symm
    subst hteq
    exact hset

/-- C2: in the json output, the emitted `start_char` is the stored
starting character offset of token `start` (the base offset plus the
advances of all earlier tokens), and the emitted `end_char` is the
stored offset of token `end + 1` minus one when that position is within
the sentence's token list, else the running offset after the whole
sentence minus one; in particular, for an annotation covering the last
token, `end_char` is the final running offset minus one. -/
theorem annDict_char_offsets (base : Nat) (toklist : List CorrectToken) (ann : Ann)
    (hstart : ann.start < toklist.length) :
    (annDictOf (tokenOffsetsRun base toklist).1 toklist.length
        (tokenOffsetsRun base toklist).2 ann).start_char =
      base + ((toklist.take ann.start).map advance).sum ∧
    (ann.«end» + 1 < toklist.length →
      (annDictOf (tokenOffsetsRun base toklist).1 toklist.length
          (tokenOffsetsRun base toklist).2 ann).end_char =
        ((base + ((toklist.take (ann.«end» + 1)).map advance).sum : Nat) : Int) - 1) ∧
    (¬ann.«end» + 1 < toklist.length →
      (annDictOf (tokenOffsetsRun base toklist).1 toklist.length
          (tokenOffsetsRun base toklist).2 ann).end_char =
        ((base + (toklist.map advance).sum : Nat) : Int) - 1) ∧
    (ann.«end» = toklist.length - 1 → 0 < toklist.length →
      (annDictOf (tokenOffsetsRun base toklist).1 toklist.length
          (tokenOffsetsRun base toklist).2 ann).end_char =
        (((tokenOffsetsRun base toklist).2 : Nat) : Int) - 1) := by
  have hrun1 : (tokenOffsetsRun base toklist).1 = offsetsRec base toklist := by
    rw [tokenOffsetsRun_eq]
  have hrun2 : (tokenOffsetsRun base toklist).2 = base + (toklist.map advance).sum := by
    rw [tokenOffsetsRun_eq]
  refine ⟨?_, ?_, ?_, ?_⟩
  · rw [annDictOf, hrun1]
    simp only [offsetsRec_get? toklist base ann.start hstart, Option.getD_some]
  · intro hend
    rw [annDictOf, hrun1]
    simp only [if_pos hend, offsetsRec_get? toklist base (ann.«end» + 1) hend,
      Option.getD_some]
  · intro hend
    rw [annDictOf, hrun2]
    simp only [if_neg hend]
  · intro hlast hpos
    have hend : ¬ann.«end» + 1 < toklist.length := by omega
    rw [annDictOf]
    simp only [if_neg hend]

/-- Witness for C2 with two concrete tokens of lengths 2 and 2 and an
annotation covering both (the second being the last token): `start_char`
is 0 and `end_char` is the final offset 4 minus one. -/
theorem annDict_char_offsets_witness :
    (annDictOf (tokenOffsetsRun 0 [⟨1, "ab", none⟩, ⟨1, "cd", none⟩]).1 2
        (tokenOffsetsRun 0 [⟨1, "ab", none⟩, ⟨1, "cd", none⟩]).2
        ⟨0, 1, "X", "msg", none, some "s", none, none⟩).start_char =
      0 + ((([⟨1, "ab", none⟩, (⟨1, "cd", none⟩ : CorrectToken)].take 0).map advance).sum) ∧
    (annDictOf (tokenOffsetsRun 0 [⟨1, "ab", none⟩, ⟨1, "cd", none⟩]).1 2
        (tokenOffsetsRun 0 [⟨1, "ab", none⟩, ⟨1, "cd", none⟩]).2
        ⟨0, 1, "X", "msg", none, some "s", none, none⟩).end_char =
      (((tokenOffsetsRun 0 [⟨1, "ab", none⟩, ⟨1, "cd", none⟩]).2 : Nat) : Int) - 1 := by
  have h := annDict_char_offsets 0 [⟨1, "ab", none⟩, ⟨1, "cd", none⟩]
    ⟨0, 1, "X", "msg", none, some "s", none, none⟩ (by decide)
  exact ⟨h.1, h.2.2.2 (by decide) (by decide)⟩

/-- C7: `sentence_stream` yields a completed sentence exactly when a
terminator-kind token is appended (the terminator is the sentence's last
token): the concatenation of all yielded sentences is the input stream
(no token dropped or duplicated), every yielded sentence is non-empty
(a trailing buffer is yielded exactly once and only when non-empty),
no yielded sentence contains a terminator-kind token anywhere except in
last position, and every yielded sentence other than the final one ends
with a terminator-kind token. -/
theorem sentenceStream_segmentation (isEnd : Nat → Bool) (ts : List CorrectToken) :
    (sentenceStream isEnd [] ts).flatten = ts ∧
    (∀ s ∈ sentenceStream isEnd [] ts, s ≠ []) ∧
    (∀ s ∈ sentenceStream isEnd [] ts, ∀ x ∈ s.dropLast, isEnd x.kind = false) ∧
    (∀ i s, (sentenceStream isEnd [] ts).get? i = some s →
      i + 1 < (sentenceStream isEnd [] ts).length →
      ∃ t, s.getLast? = some t ∧ isEnd t.kind = true) :=
  ⟨by simpa using sentenceStream_join isEnd ts [],
   sentenceStream_ne_nil isEnd ts [],
   sentenceStream_no_inner_end isEnd ts [] (by simp),
   sentenceStream_nonfinal_ends isEnd ts []⟩

/-- Witness for C7 on the concrete stream `a END b` with terminator
kind 9: the two yielded sentences are `[a, END]` and `[b]`. -/
theorem sentenceStream_segmentation_witness :
    (sentenceStream (fun k => k == 9) []
        [⟨1, "a", none⟩, ⟨9, ".", none⟩, ⟨1, "b", none⟩]).flatten =
      [⟨1, "a", none⟩, ⟨9, ".", none⟩, ⟨1, "b", none⟩] ∧
    ([⟨1, "a", none⟩, ⟨9, ".", none⟩] : List CorrectToken) ≠ [] ∧
    (fun k => k == 9) (⟨1, "a", none⟩ : CorrectToken).kind = false ∧
    ∃ t, ([⟨1, "a", none⟩, ⟨9, ".", none⟩] : List CorrectToken).getLast? = some t ∧
      (fun k => k == 9) t.kind = true := by
  have h := sentenceStream_segmentation (fun k => k == 9)
    [⟨1, "a", none⟩, ⟨9, ".", none⟩, ⟨1, "b", none⟩]
  exact ⟨h.1, h.2.1 [⟨1, "a", none⟩, ⟨9, ".", none⟩] (by decide),
    h.2.2.1 [⟨1, "a", none⟩, ⟨9, ".", none⟩] (by decide) ⟨1, "a", none⟩ (by decide),
    h.2.2.2 0 [⟨1, "a", none⟩, ⟨9, ".", none⟩] (by decide) (by decide)⟩

/-- C8: `quote` of an empty or absent string is exactly the two-character
string of two double quotes; for every non-empty string `s`, `quote s`
wraps `s` in double quotes after escaping every backslash to a double
backslash and then every double quote to a backslash-escaped double
quote, and the escaping round-trips: stripping the outer quotes and
unescaping reproduces `s` exactly. -/
theorem quote_empty_and_roundtrip :
    quoteOpt none = "\"\"" ∧
    quote "" = "\"\"" ∧
    (quote "").data = ['"', '"'] ∧
    ∀ s : String, s ≠ "" →
      (quote s).data = '"' :: escapeQuote (escapeBackslash s.data) ++ ['"'] ∧
      unquote (quote s) = s := by
  refine ⟨rfl, rfl, rfl, ?_⟩
  intro s hs
  have hd := quote_data_of_ne hs
  refine ⟨hd, ?_⟩
  rw [unquote, hd]
  have h1 : ('"' :: escapeQuote (escapeBackslash s.data) ++ ['"']).drop 1
      = escapeQuote (escapeBackslash s.data) ++ ['"'] := rfl
  rw [h1, List.dropLast_concat, unescape_escape]

/-- Witness for C8 at the concrete string `a\"b` (one backslash, one
double quote). -/
theorem quote_empty_and_roundtrip_witness :
    unquote (quote "a\\\"b") = "a\\\"b" :=
  (quote_empty_and_roundtrip.2.2.2 "a\\\"b" (by decide)).2

/-- C10: when the checker returns no result (`None`) for a sentence,
the `check_grammar` loop body skips it silently: the whole per-document
state — running character offset, accumulated output units, buffered
annotation lines — is returned unchanged, no matter the format and
options; the `continue` happens before any state is touched. -/
theorem checker_none_skips (opts : GOptions)
    (check_tokens : List CorrectToken → Option CheckedSent)
    (detokenize : List CorrectToken → String)
    (json_dumps : AnnResultDict → String)
    (annStr : Ann → String)
    (st : GState) (toklist : List CorrectToken)
    (h : check_tokens toklist = none) :
    processSentence opts check_tokens detokenize json_dumps annStr st toklist = st ∧
    (processSentence opts check_tokens detokenize json_dumps annStr st toklist).offset =
      st.offset ∧
    (processSentence opts check_tokens detokenize json_dumps annStr st toklist).accumul =
      st.accumul ∧
    (processSentence opts check_tokens detokenize json_dumps annStr st toklist).annlist =
      st.annlist := by
  have heq : processSentence opts check_tokens detokenize json_dumps annStr st toklist
      = st := by
    rw [processSentence, h]
  exact ⟨heq, by rw [heq], by rw [heq], by rw [heq]⟩

/-- Witness for C10: a concrete always-`None` checker leaves a concrete
non-trivial state untouched in json format. -/
theorem checker_none_skips_witness :
    processSentence ⟨Format.json, false, none⟩ (fun _ => none) (fun _ => "")
        (fun _ => "") (fun _ => "") ⟨7, ["u"], ["v"]⟩ [⟨1, "a", none⟩] =
      ⟨7, ["u"], ["v"]⟩ :=
  (checker_none_skips ⟨Format.json, false, none⟩ (fun _ => none) (fun _ => "")
    (fun _ => "") (fun _ => "") ⟨7, ["u"], ["v"]⟩ [⟨1, "a", none⟩] rfl).1

end GreynirCorrect
